import Mathlib

/-!
Verification of the note-vault core (path model, Markdown analyser, index
store, change detection, vault facade) against its specification.  Rust
strings are modelled as lists of Unicode scalar values (`List Char`);
machine integers that never overflow in the modelled scenarios (sizes,
timestamps, hashes) are modelled as `Nat`.
-/

namespace NotesVault

/-- Rust `String` / `&str`, modelled as the list of its `char`s. -/
abbrev Str := List Char

/-! ## Path model (`core_notes/src/nfs/mod.rs`)

`NotePath` is an ordered sequence of slices; each slice is sanitised on
construction by replacing every character matching
`NON_VALID_PATH_CHARS_REGEX = [\\/:*?"<>|]` with `_`. -/

/-- The disallowed characters of `NON_VALID_PATH_CHARS_REGEX`. -/
def nonValidPathChars : List Char := ['\\', '/', ':', '*', '?', '"', '<', '>', '|']

/-- One step of `Regex::replace_all(slice, "_")`: a disallowed character
becomes `_`, any other character is kept. -/
def sanitizeChar (c : Char) : Char :=
  if c ∈ nonValidPathChars then '_' else c

/-- `NotePathSlice::new`: replace every disallowed character by `_`. -/
def sanitizeSlice (s : Str) : Str := s.map sanitizeChar

/-- A `NotePath` is its list of slices (the `slices` field). -/
abbrev NotePath := List Str

/-- Rust `str::split(sep)`: all pieces between separators, keeping empty
pieces; the empty string yields one empty piece. -/
def splitSep (sep : Char) : Str → List Str
  | [] => [[]]
  | c :: cs =>
    match splitSep sep cs with
    | [] => [[]]
    | h :: t => if c = sep then [] :: h :: t else (c :: h) :: t

/-- `NotePath::new`: split on `/`, drop empty components, sanitise each. -/
def NotePath.new (s : Str) : NotePath :=
  ((splitSep '/' s).filter (· ≠ [])).map sanitizeSlice

/-- `NotePath::root()`. -/
def NotePath.root : NotePath := []

/-- Join a list of slices with a separator (the `join` of `Display for NotePath`). -/
def joinSep (sep : Char) : List Str → Str
  | [] => []
  | [a] => a
  | a :: rest => a ++ sep :: joinSep sep rest

/-- `Display for NotePath`: `/` followed by the slices joined by `/`. -/
def NotePath.display (p : NotePath) : Str := '/' :: joinSep '/' p

/-- `NotePath::get_parent_path`: pop the last slice. -/
def NotePath.get_parent_path (p : NotePath) : NotePath × Str :=
  (p.dropLast, (p.getLast?).getD [])

/-- A slice as produced by the sanitising constructors: non-empty and free
of disallowed characters. -/
def validSlice (s : Str) : Prop := s ≠ [] ∧ ∀ c ∈ s, c ∉ nonValidPathChars

instance validSlice.decidable (s : Str) : Decidable (validSlice s) :=
  decidable_of_iff (s ≠ [] ∧ ∀ c ∈ s, c ∉ nonValidPathChars) Iff.rfl

/-! Helper lemmas for the `from_string ∘ display` round trip. -/

theorem splitSep_ne_nil (sep : Char) (s : Str) : splitSep sep s ≠ [] := by
  cases s with
  | nil => simp [splitSep]
  | cons c cs =>
    simp only [splitSep]
    cases h : splitSep sep cs with
    | nil => simp
    | cons h t => by_cases hc : c = sep <;> simp [hc]

theorem splitSep_sep_cons (sep : Char) (s : Str) :
    splitSep sep (sep :: s) = [] :: splitSep sep s := by
  simp only [splitSep]
  cases h : splitSep sep s with
  | nil => exact absurd h (splitSep_ne_nil sep s)
  | cons h t => simp

/-- Splitting a separator-free string yields that string as the only piece. -/
theorem splitSep_no_sep (sep : Char) (s : Str) (h : ∀ c ∈ s, c ≠ sep) :
    splitSep sep s = [s] := by
  induction s with
  | nil => rfl
  | cons c cs ih =>
    have hc : c ≠ sep := h c (List.mem_cons_self c cs)
    have ihh := ih (fun x hx => h x (List.mem_cons_of_mem c hx))
    simp only [splitSep, ihh]
    simp [hc]

/-- Splitting after a separator-free chunk followed by a separator peels off
that chunk. -/
theorem splitSep_append_sep (sep : Char) (a r : Str) (h : ∀ c ∈ a, c ≠ sep) :
    splitSep sep (a ++ sep :: r) = a :: splitSep sep r := by
  induction a with
  | nil => simpa using splitSep_sep_cons sep r
  | cons c cs ih =>
    have hc : c ≠ sep := h c (List.mem_cons_self c cs)
    have ihh := ih (fun x hx => h x (List.mem_cons_of_mem c hx))
    simp only [List.cons_append, splitSep, List.append_eq]
    rw [ihh]
    simp [hc]

/-- Splitting the display-style join of separator-free non-empty slices
recovers the slices. -/
theorem splitSep_joinSep (sep : Char) (p : List Str) (hp : p ≠ [])
    (h : ∀ s ∈ p, ∀ c ∈ s, c ≠ sep) :
    splitSep sep (joinSep sep p) = p := by
  induction p with
  | nil => exact absurd rfl hp
  | cons a rest ih =>
    cases rest with
    | nil =>
      simp only [joinSep]
      exact splitSep_no_sep sep a (h a (List.mem_cons_self a []))
    | cons b rest' =>
      have ha : ∀ c ∈ a, c ≠ sep := h a (List.mem_cons_self a _)
      have hrest : ∀ s ∈ b :: rest', ∀ c ∈ s, c ≠ sep :=
        fun s hs => h s (List.mem_cons_of_mem a hs)
      have ihh := ih (by simp) hrest
      simp only [joinSep, splitSep_append_sep sep a _ ha, ihh]

theorem sanitizeChar_of_valid (c : Char) (h : c ∉ nonValidPathChars) :
    sanitizeChar c = c := by
  simp [sanitizeChar, h]

theorem sanitizeSlice_of_valid (s : Str) (h : ∀ c ∈ s, c ∉ nonValidPathChars) :
    sanitizeSlice s = s := by
  induction s with
  | nil => rfl
  | cons c cs ih =>
    have hc := sanitizeChar_of_valid c (h c (List.mem_cons_self c cs))
    have ihh := ih (fun x hx => h x (List.mem_cons_of_mem c hx))
    simp only [sanitizeSlice, List.map_cons, hc]
    simpa [sanitizeSlice] using ihh

/-- Sanitisation is idempotent at the character level: `_` is itself a
valid character. -/
theorem sanitizeChar_idem (c : Char) : sanitizeChar (sanitizeChar c) = sanitizeChar c := by
  by_cases h : c ∈ nonValidPathChars <;> simp [sanitizeChar, h]

/-- Sanitisation of a slice is idempotent. -/
theorem sanitizeSlice_idem (s : Str) : sanitizeSlice (sanitizeSlice s) = sanitizeSlice s := by
  simp only [sanitizeSlice, List.map_map]
  exact List.map_congr_left (fun c _ => sanitizeChar_idem c)

/-- The slices of a sanitised path are valid: sanitisation removes every
disallowed character and length is preserved, so non-empty input slices
stay non-empty. -/
theorem sanitizeSlice_valid (s : Str) (hs : s ≠ []) : validSlice (sanitizeSlice s) := by
  constructor
  · simpa [sanitizeSlice] using hs
  · intro c hc
    simp only [sanitizeSlice, List.mem_map] at hc
    obtain ⟨d, _, rfl⟩ := hc
    by_cases h : d ∈ nonValidPathChars
    · simp [sanitizeChar, h]
      decide
    · simp [sanitizeChar, h]

/-- Filtering out empty slices from a list of non-empty slices keeps it. -/
theorem filter_nonempty_eq_self (l : List Str) (h : ∀ s ∈ l, s ≠ []) :
    l.filter (· ≠ []) = l := by
  induction l with
  | nil => rfl
  | cons a t ih =>
    have ha : a ≠ [] := h a (by simp)
    have iht := ih (fun s hs => h s (by simp [hs]))
    simp [List.filter_cons, ha, iht]
    exact fun s hs => h s (List.mem_cons_of_mem _ hs)

/-- `NotePath::new` keeps exactly the non-empty pieces, sanitised. -/
theorem notePath_new_display_aux (p : NotePath) (hval : ∀ s ∈ p, validSlice s) :
    NotePath.new (NotePath.display p) = p := by
  cases hp : p with
  | nil => rfl
  | cons a rest =>
    subst hp
    have hsepfree : ∀ s ∈ a :: rest, ∀ c ∈ s, c ≠ '/' := by
      intro s hs c hc hcontra
      exact (hval s hs).2 c hc (by rw [hcontra]; decide)
    have hsplit := splitSep_joinSep '/' (a :: rest) (by simp) hsepfree
    simp only [NotePath.new, NotePath.display, splitSep_sep_cons, hsplit]
    have hcons : (([] : Str) :: a :: rest).filter (· ≠ []) = (a :: rest).filter (· ≠ []) := by
      simp
    rw [hcons, filter_nonempty_eq_self _ (fun s hs => (hval s hs).1)]
    have hmap : List.map sanitizeSlice (a :: rest) = List.map id (a :: rest) :=
      List.map_congr_left (fun s hs => sanitizeSlice_of_valid s (hval s hs).2)
    simpa using hmap

/-- C5: for every `VaultPath` `p` (every path the sanitising constructors can
produce, i.e. one whose slices are non-empty and free of disallowed
characters), `from_string(display(p)) = p`; and component sanitisation is
idempotent: re-sanitising an already sanitised slice leaves it unchanged. -/
theorem c5_display_roundtrip_and_sanitize_idempotent :
    (∀ p : NotePath, (∀ s ∈ p, validSlice s) → NotePath.new (NotePath.display p) = p)
    ∧ ∀ s : Str, sanitizeSlice (sanitizeSlice s) = sanitizeSlice s :=
  ⟨notePath_new_display_aux, sanitizeSlice_idem⟩

/-- Witness for C5 at the concrete path `/a/b.md` and the slice `x?y`. -/
theorem c5_display_roundtrip_and_sanitize_idempotent_witness :
    NotePath.new (NotePath.display [['a'], ['b', '.', 'm', 'd']]) = [['a'], ['b', '.', 'm', 'd']]
    ∧ sanitizeSlice (sanitizeSlice ['x', '?', 'y']) = sanitizeSlice ['x', '?', 'y'] :=
  ⟨c5_display_roundtrip_and_sanitize_idempotent.1 _ (by decide),
   c5_display_roundtrip_and_sanitize_idempotent.2 _⟩

/-- Shorthand: a Rust string literal as a `Str`. -/
def str (s : String) : Str := s.data

/-! ## Markdown analyser (`core_notes/src/parser.rs`) -/

/-- One trailing carriage return is stripped from a line that was ended by
`\r\n`, as Rust `str::lines` does. -/
def stripTrailingCR (l : Str) : Str :=
  if l.getLast? = some '\r' then l.dropLast else l

/-- Rust `str::lines()`: lines are split at `\n` (stripping a preceding
`\r`), and a final line ending is optional.  The final piece, which is not
followed by a `\n`, keeps a trailing `\r`. -/
def rustLines (s : Str) : List Str :=
  let pieces := splitSep '\n' s
  let last := (pieces.getLast?).getD []
  if last = [] then pieces.dropLast.map stripTrailingCR
  else pieces.dropLast.map stripTrailingCR ++ [last]

/-- The state of the `remove_frontmatter` scanning loop:
`(frontmatter, content, closed_fm)`. -/
abbrev FmState := List Str × List Str × Bool

/-- One iteration of the `for next_line in lines` loop of
`remove_frontmatter`. -/
def fmStep (close : Str) (acc : FmState) (next_line : Str) : FmState :=
  if next_line = close then (acc.1, acc.2.1, true)
  else if acc.2.2 then (acc.1, acc.2.1 ++ [next_line], acc.2.2)
  else (acc.1 ++ [next_line], acc.2.1, acc.2.2)

/-- `remove_frontmatter(text) -> (frontmatter, text)`. -/
def remove_frontmatter (text : Str) : Str × Str :=
  match rustLines text with
  | [] => ([], [])
  | first_line :: rest =>
    if first_line = str "---" ∨ first_line = str "+++" then
      let scan := rest.foldl (fmStep first_line) ([], [], false)
      if scan.2.2 then (joinSep '\n' scan.1, joinSep '\n' scan.2.1)
      else ([], joinSep '\n' scan.1)
    else ([], text)

/-- Scanning lines that never hit the close delimiter only accumulates
frontmatter. -/
theorem fmFold_no_close (close : Str) (ls : List Str) (hnc : close ∉ ls) :
    ∀ fm content, ls.foldl (fmStep close) (fm, content, false) = (fm ++ ls, content, false) := by
  induction ls with
  | nil => intro fm content; simp
  | cons l ls ih =>
    intro fm content
    have hl : l ≠ close := by rintro rfl; exact hnc (List.mem_cons_self l ls)
    have hts : close ∉ ls := fun h => hnc (List.mem_cons_of_mem l h)
    have hstep : fmStep close (fm, content, false) l = (fm ++ [l], content, false) := by
      simp [fmStep, hl]
    rw [List.foldl_cons, hstep, ih hts]
    simp

/-- Once the close delimiter has been seen, each later line goes to the
content except further occurrences of the delimiter, which are dropped. -/
theorem fmFold_closed (close : Str) (ls : List Str) :
    ∀ fm content, ls.foldl (fmStep close) (fm, content, true)
      = (fm, content ++ ls.filter (· ≠ close), true) := by
  induction ls with
  | nil => intro fm content; simp
  | cons l ls ih =>
    intro fm content
    by_cases hl : l = close
    · have hstep : fmStep close (fm, content, true) l = (fm, content, true) := by
        simp [fmStep, hl]
      rw [List.foldl_cons, hstep, ih fm content]
      simp [List.filter_cons, hl]
    · have hstep : fmStep close (fm, content, true) l = (fm, content ++ [l], true) := by
        simp [fmStep, hl]
      rw [List.foldl_cons, hstep, ih fm (content ++ [l])]
      simp [List.filter_cons, hl]

/-- C4 counterexample: for `"---\nHello"` (an opening delimiter with no
closing line) the code drops the delimiter line and returns only
`"Hello"` as the body, not the whole text as the claim states. -/
theorem c4_frontmatter_counterexample :
    remove_frontmatter (str "---\nHello") = ([], str "Hello")
    ∧ remove_frontmatter (str "---\nHello") ≠ ([], str "---\nHello") := by
  decide

/-- C4 (amended): if the first line is exactly `---` or `+++` and no later
line equals it, the frontmatter is empty and the body is the text after the
first line — the opening delimiter line is dropped, not kept.  When a
matching closing line exists, the frontmatter is the block strictly between
the opening delimiter and the first close, and the body is the lines after
that close with any further delimiter lines dropped, rejoined with `\n`. -/
theorem c4_frontmatter_amended (text first_line : Str) (rest : List Str)
    (hlines : rustLines text = first_line :: rest)
    (hdelim : first_line = str "---" ∨ first_line = str "+++") :
    (first_line ∉ rest → remove_frontmatter text = ([], joinSep '\n' rest))
    ∧ (∀ pre post, rest = pre ++ first_line :: post → first_line ∉ pre →
        remove_frontmatter text
          = (joinSep '\n' pre, joinSep '\n' (post.filter (· ≠ first_line)))) := by
  constructor
  · intro hnc
    simp only [remove_frontmatter, hlines]
    rw [if_pos hdelim, fmFold_no_close first_line rest hnc]
    simp
  · intro pre post hsplit hnp
    simp only [remove_frontmatter, hlines, hsplit]
    rw [if_pos hdelim, List.foldl_append, fmFold_no_close first_line pre hnp]
    have hstep : fmStep first_line ([] ++ pre, [], false) first_line
        = ([] ++ pre, [], true) := by
      simp [fmStep]
    rw [List.foldl_cons, hstep, fmFold_closed first_line post]
    simp

/-- Witness for C4 on `"---\na\n---\nb"`: frontmatter `a`, body `b`. -/
theorem c4_frontmatter_amended_witness :
    remove_frontmatter (str "---\na\n---\nb") = (str "a", str "b") := by
  have h := (c4_frontmatter_amended (str "---\na\n---\nb") (str "---")
      [str "a", str "---", str "b"] (by decide) (Or.inl rfl)).2
      [str "a"] [str "b"] (by decide) (by decide)
  rw [h]
  decide

/-! ## Title extraction cap (`core_notes/src/parser.rs`, `parse_text`)

The title candidate is cut by `t[..min(MAX_TITLE_LENGTH, t.len())]`:
`t.len()` is the UTF-8 **byte** length and the range indexing slices at a
**byte** offset, panicking when the offset is not a character boundary. -/

/-- `MAX_TITLE_LENGTH` from `parser.rs`. -/
def MAX_TITLE_LENGTH : Nat := 20

/-- Rust `str::len()`: the length in UTF-8 bytes. -/
def utf8Len (s : Str) : Nat := (s.map Char.utf8Size).sum

/-- Rust `&t[..k]` on a string: the first `k` bytes; `none` models the
panic raised when byte offset `k` is not a character boundary. -/
def byteSlicePrefix : Nat → Str → Option Str
  | 0, _ => some []
  | _ + 1, [] => none
  | k, c :: cs =>
    if c.utf8Size ≤ k then (byteSlicePrefix (k - c.utf8Size) cs).map (fun t => c :: t)
    else none

/-- `parse_text`, title assignment (`parser.rs` lines 53–57):
`title_cand.lines().next().map(|t| t[..min(MAX_TITLE_LENGTH, t.len())])`
applied to the text of the first Markdown event.  The outer `none` models
the byte-slice panic. -/
def extract_title (title_cand : Str) : Option (Option Str) :=
  match rustLines title_cand with
  | [] => some none
  | l :: _ =>
    match byteSlicePrefix (min MAX_TITLE_LENGTH (utf8Len l)) l with
    | none => none
    | some pre => some (some pre)

/-- C3: the title cap is applied to bytes, not code points.  A first line of
eleven `α` (22 UTF-8 bytes, 11 code points — under the claimed 20-code-point
cap) is truncated to ten characters (20 bytes); a first line of seven `あ`
(21 bytes) panics because byte offset 20 falls inside a character. -/
theorem c3_title_cap_counts_bytes :
    extract_title (List.replicate 11 'α') = some (some (List.replicate 10 'α'))
    ∧ extract_title (List.replicate 7 'あ') = none := by
  decide

/-! ## Change detection (`core/src/nfs/visitor.rs`)

The walker classifies each on-disk note against the cached index entry
according to the validation mode. -/

/-- `NotesValidation` from `core/src/lib.rs`. -/
inductive NotesValidation where
  | Full
  | Fast
  | None
deriving DecidableEq, Repr

/-- `NoteEntryData`: stat identity of a note (path, byte size, mtime in
whole seconds since the epoch). -/
structure NoteEntryData where
  path : NotePath
  size : Nat
  modified_secs : Nat
deriving DecidableEq, Repr

/-- `NoteContentData`: data derived from the note text; `hash` is the
content fingerprint, computed externally by `gxhash32` over the
diacritic-stripped text. -/
structure NoteContentData where
  hash : Nat
  title : Option Str
deriving DecidableEq, Repr

/-- `NoteDetails`: path, derived content data, and the note text.  In the
source the text is lazily fetched; `text` models the value `get_content()`
returns where it is consumed. -/
structure NoteDetails where
  path : NotePath
  data : NoteContentData
  text : Str
deriving DecidableEq, Repr

/-- An on-disk note as the visitor sees it: the stat data plus the
fingerprint of its current content (`load_details(...).data.hash`). -/
structure DiskNote where
  entry : NoteEntryData
  hash : Nat
deriving DecidableEq, Repr

/-- `has_changed_fast_check`: size or mtime-seconds differ. -/
def has_changed_fast_check (cached disk : NoteEntryData) : Bool :=
  disk.size ≠ cached.size || disk.modified_secs ≠ cached.modified_secs

/-- `has_changed_deep_check`: the fingerprint of the current on-disk
content differs from the cached fingerprint. -/
def has_changed_deep_check (cached : NoteDetails) (diskHash : Nat) : Bool :=
  !(diskHash = cached.data.hash)

/-- The `changed` computation of `verify_cached_note` for a note present in
the cache. -/
def verify_changed (validation : NotesValidation) (cached_data : NoteEntryData)
    (cached_details : NoteDetails) (disk : DiskNote) : Bool :=
  match validation with
  | NotesValidation.Full => has_changed_deep_check cached_details disk.hash
  | NotesValidation.Fast => has_changed_fast_check cached_data disk.entry
  | NotesValidation.None => false

/-- Classification of a visited note by `verify_cached_note`. -/
inductive NoteClass where
  | toAdd
  | toModify
  | unchanged
deriving DecidableEq, Repr

/-- `verify_cached_note`: a note absent from the snapshot is an add; a
cached note is a modify exactly when `verify_changed` holds. -/
def verify_cached_note (validation : NotesValidation)
    (cached : Option (NoteEntryData × NoteDetails)) (disk : DiskNote) : NoteClass :=
  match cached with
  | some (cached_data, cached_details) =>
    if verify_changed validation cached_data cached_details disk
    then NoteClass.toModify else NoteClass.unchanged
  | Option.none => NoteClass.toAdd

/-- C2 counterexample: a cached note whose on-disk file has the same size
and an identical content fingerprint but a newer mtime (e.g. `touch`ed
without editing) is classified as changed under Fast validation yet as
unchanged under Full validation, so Fast-detected changes are not a subset
of Full-detected changes. -/
theorem c2_validation_counterexample :
    verify_cached_note NotesValidation.Fast
        (some (⟨[], 5, 100⟩, ⟨[], ⟨42, Option.none⟩, []⟩)) ⟨⟨[], 5, 200⟩, 42⟩
      = NoteClass.toModify
    ∧ verify_cached_note NotesValidation.Full
        (some (⟨[], 5, 100⟩, ⟨[], ⟨42, Option.none⟩, []⟩)) ⟨⟨[], 5, 200⟩, 42⟩
      = NoteClass.unchanged := by
  decide

/-- C2 (amended): under None validation no cached note is ever classified
as modified, and under Full validation a cached note is classified as
modified exactly when the content fingerprints differ.  Fast and Full are
incomparable: a stat-level change (size or mtime) detected by Fast need not
be detected by Full when the fingerprint is unchanged. -/
theorem c2_validation_modes_amended :
    (∀ (cd : NoteEntryData) (cdet : NoteDetails) (disk : DiskNote),
       verify_cached_note NotesValidation.None (some (cd, cdet)) disk ≠ NoteClass.toModify)
    ∧ (∀ (cd : NoteEntryData) (cdet : NoteDetails) (disk : DiskNote),
       verify_cached_note NotesValidation.Full (some (cd, cdet)) disk = NoteClass.toModify
         ↔ disk.hash ≠ cdet.data.hash) := by
  constructor
  · intro cd cdet disk
    simp [verify_cached_note, verify_changed]
  · intro cd cdet disk
    simp [verify_cached_note, verify_changed, has_changed_deep_check]

/-! ## Index store (`core_notes/src/db/mod.rs`)

The `notes` table (path primary key) and the `notesContent` FTS table
(no key constraint) are modelled as row lists. -/

/-- A row of the `notes` table. -/
structure NotesRow where
  path : Str
  title : Option Str
  size : Nat
  modified : Nat
  hash : Nat
  basePath : Str
  noteName : Str
deriving DecidableEq, Repr

/-- A row of the `notesContent` FTS virtual table. -/
structure NotesContentRow where
  path : Str
  content : Str
deriving DecidableEq, Repr

/-- The index state: the two tables the write operations touch. -/
structure DBState where
  notes : List NotesRow
  notesContent : List NotesContentRow
deriving DecidableEq, Repr

/-- `insert_note`: the `INSERT INTO notes` hits the `path` primary key, so
it fails when a row with the same path exists — that error is only logged
(`error!`) and swallowed — while the `INSERT INTO notesContent` is
unconditional (FTS4 tables have no key constraint) and always appends. -/
def insert_note (tx : DBState) (data : NoteEntryData) (details : NoteDetails) : DBState :=
  let pstr := details.path.display
  let parent := details.path.get_parent_path
  { notes :=
      if tx.notes.any (fun r => r.path = pstr) then tx.notes
      else tx.notes ++ [⟨pstr, details.data.title, data.size, data.modified_secs,
                         details.data.hash, parent.1.display, parent.2⟩],
    notesContent := tx.notesContent ++ [⟨pstr, details.text⟩] }

/-- `update_note`: `UPDATE ... WHERE path = ?1` on both tables. -/
def update_note (tx : DBState) (data : NoteEntryData) (details : NoteDetails) : DBState :=
  let pstr := details.path.display
  { notes := tx.notes.map (fun r =>
      if r.path = pstr then
        { r with title := details.data.title, size := data.size,
                 modified := data.modified_secs, hash := details.data.hash }
      else r),
    notesContent := tx.notesContent.map (fun r =>
      if r.path = pstr then { r with content := details.text } else r) }

/-- `delete_note`: `DELETE ... WHERE path = ?1` on both tables. -/
def delete_note (tx : DBState) (path : NotePath) : DBState :=
  { notes := tx.notes.filter (fun r => r.path ≠ path.display),
    notesContent := tx.notesContent.filter (fun r => r.path ≠ path.display) }

/-- `insert_notes`: `insert_note` for each batch element, in order. -/
def insert_notes (tx : DBState) (batch : List (NoteEntryData × NoteDetails)) : DBState :=
  batch.foldl (fun acc rd => insert_note acc rd.1 rd.2) tx

/-- `update_notes`: `update_note` for each batch element, in order. -/
def update_notes (tx : DBState) (batch : List (NoteEntryData × NoteDetails)) : DBState :=
  batch.foldl (fun acc rd => update_note acc rd.1 rd.2) tx

/-- `delete_notes`: `delete_note` for each path, in order. -/
def delete_notes (tx : DBState) (paths : List NotePath) : DBState :=
  paths.foldl (fun acc p => delete_note acc p) tx

/-- The `notes` ↔ `notesContent` bijection on the stringified path: at most
one `notes` row per path (the primary key) and, for every path string, as
many `notesContent` rows as `notes` rows. -/
def pathBijection (s : DBState) : Prop :=
  (∀ p : Str, s.notes.countP (fun r => r.path = p) ≤ 1)
  ∧ ∀ p : Str, s.notes.countP (fun r => r.path = p)
      = s.notesContent.countP (fun c => c.path = p)

/-- `pathBijection` says exactly that every `notes` row has exactly one
`notesContent` row with the same path string and vice versa. -/
theorem pathBijection_iff (s : DBState) :
    pathBijection s ↔
      ((∀ r ∈ s.notes, s.notesContent.countP (fun c => c.path = r.path) = 1)
       ∧ ∀ c ∈ s.notesContent, s.notes.countP (fun r => r.path = c.path) = 1) := by
  constructor
  · rintro ⟨hle, heq⟩
    constructor
    · intro r hr
      have hpos : 0 < s.notes.countP (fun x => x.path = r.path) :=
        List.countP_pos_iff.mpr ⟨r, hr, by simp⟩
      have h1 := hle r.path
      have h2 := heq r.path
      omega
    · intro c hc
      have hpos : 0 < s.notesContent.countP (fun x => x.path = c.path) :=
        List.countP_pos_iff.mpr ⟨c, hc, by simp⟩
      have h1 := hle c.path
      have h2 := heq c.path
      omega
  · rintro ⟨hn, hc⟩
    have hle : ∀ p : Str, s.notes.countP (fun r => r.path = p) ≤ 1 := by
      intro p
      by_contra hgt
      push_neg at hgt
      have hpos : 0 < s.notes.countP (fun r => r.path = p) := by omega
      obtain ⟨r, hr, hrp⟩ := List.countP_pos_iff.mp hpos
      have hrp' : r.path = p := by simpa using hrp
      obtain ⟨c, hcmem, hcp⟩ := List.countP_pos_iff.mp
        (by rw [hn r hr]; omega : 0 < s.notesContent.countP (fun c => c.path = r.path))
      have hcp' : c.path = r.path := by simpa using hcp
      have h2 := hc c hcmem
      rw [hcp', hrp'] at h2
      omega
    refine ⟨hle, fun p => ?_⟩
    by_cases hpos : 0 < s.notes.countP (fun r => r.path = p)
    · obtain ⟨r, hr, hrp⟩ := List.countP_pos_iff.mp hpos
      have hrp' : r.path = p := by simpa using hrp
      have h1 := hn r hr
      rw [hrp'] at h1
      have h2 := hle p
      omega
    · push_neg at hpos
      have h0 : s.notes.countP (fun r => r.path = p) = 0 := by omega
      rw [h0]
      by_contra hne
      have hcpos : 0 < s.notesContent.countP (fun c => c.path = p) := by omega
      obtain ⟨c, hcmem, hcp⟩ := List.countP_pos_iff.mp hcpos
      have hcp' : c.path = p := by simpa using hcp
      have h2 := hc c hcmem
      rw [hcp'] at h2
      omega

/-- Mapping a path-preserving row update does not change per-path counts. -/
theorem countP_path_map {α : Type} (f : α → α) (path : α → Str)
    (hf : ∀ a, path (f a) = path a) (l : List α) (p : Str) :
    (l.map f).countP (fun a => path a = p) = l.countP (fun a => path a = p) := by
  induction l with
  | nil => rfl
  | cons a t ih => simp [List.countP_cons, hf, ih]

/-- Per-path counts after a `DELETE ... WHERE path = q`. -/
theorem countP_path_filter_ne {α : Type} (path : α → Str) (l : List α) (p q : Str) :
    (l.filter (fun a => path a ≠ q)).countP (fun a => path a = p)
      = if p = q then 0 else l.countP (fun a => path a = p) := by
  induction l with
  | nil => simp
  | cons a t ih =>
    simp only [List.filter_cons]
    by_cases hq : path a = q
    · rw [if_neg (by simp [hq]), ih]
      by_cases hpq : p = q
      · simp [hpq]
      · have hap : ¬ path a = p := by rw [hq]; exact fun h => hpq (h.symm)
        simp [hpq, List.countP_cons, hap]
    · rw [if_pos (by simp [hq]), List.countP_cons, ih, List.countP_cons]
      by_cases hpq : p = q
      · have hap : ¬ path a = p := by rw [hpq]; exact hq
        simp [hpq, hap, hq]
      · simp [hpq]

/-- Per-path counts after appending one row. -/
theorem countP_path_append {α : Type} (path : α → Str) (l : List α) (x : α) (p : Str) :
    (l ++ [x]).countP (fun a => path a = p)
      = l.countP (fun a => path a = p) + (if path x = p then 1 else 0) := by
  by_cases hx : path x = p <;> simp [List.countP_append, List.countP_cons, hx]

/-- `update_note` preserves the bijection: both `UPDATE` statements keep
the `path` column untouched. -/
theorem update_note_pathBijection (s : DBState) (data : NoteEntryData)
    (details : NoteDetails) (h : pathBijection s) :
    pathBijection (update_note s data details) := by
  obtain ⟨hle, heq⟩ := h
  constructor
  · intro p
    rw [update_note]
    rw [countP_path_map _ NotesRow.path (by intro a; by_cases ha : a.path = details.path.display <;> simp [ha])]
    exact hle p
  · intro p
    rw [update_note]
    rw [countP_path_map _ NotesRow.path (by intro a; by_cases ha : a.path = details.path.display <;> simp [ha])]
    rw [countP_path_map _ NotesContentRow.path (by intro a; by_cases ha : a.path = details.path.display <;> simp [ha])]
    exact heq p

/-- `delete_note` preserves the bijection: it removes all rows with the
given path from both tables. -/
theorem delete_note_pathBijection (s : DBState) (path : NotePath)
    (h : pathBijection s) : pathBijection (delete_note s path) := by
  obtain ⟨hle, heq⟩ := h
  constructor
  · intro p
    rw [delete_note]
    rw [countP_path_filter_ne NotesRow.path]
    by_cases hp : p = path.display <;> simp [hp]
    · exact hle _
  · intro p
    rw [delete_note]
    rw [countP_path_filter_ne NotesRow.path, countP_path_filter_ne NotesContentRow.path]
    by_cases hp : p = path.display <;> simp [hp]
    exact heq p

/-- With a fresh path the `notes` insert succeeds and appends a row. -/
theorem insert_note_notes_of_fresh (s : DBState) (data : NoteEntryData)
    (details : NoteDetails)
    (hfresh : ∀ r ∈ s.notes, r.path ≠ details.path.display) :
    (insert_note s data details).notes
      = s.notes ++ [⟨details.path.display, details.data.title, data.size,
          data.modified_secs, details.data.hash,
          (details.path.get_parent_path).1.display, (details.path.get_parent_path).2⟩] := by
  have hany : s.notes.any (fun r => r.path = details.path.display) = false := by
    rw [List.any_eq_false]
    intro r hr
    simpa using hfresh r hr
  simp only [insert_note, hany]
  simp

/-- `insert_note` on a path with no existing `notes` row preserves the
bijection: both tables gain exactly one row with that path. -/
theorem insert_note_pathBijection (s : DBState) (data : NoteEntryData)
    (details : NoteDetails) (h : pathBijection s)
    (hfresh : ∀ r ∈ s.notes, r.path ≠ details.path.display) :
    pathBijection (insert_note s data details) := by
  obtain ⟨hle, heq⟩ := h
  have hzero : s.notes.countP (fun r => r.path = details.path.display) = 0 := by
    rw [List.countP_eq_zero]
    intro r hr
    simpa using hfresh r hr
  have hnotes := insert_note_notes_of_fresh s data details hfresh
  have hcontent : (insert_note s data details).notesContent
      = s.notesContent ++ [⟨details.path.display, details.text⟩] := rfl
  constructor
  · intro p
    rw [hnotes, countP_path_append NotesRow.path]
    by_cases hp : details.path.display = p
    · subst hp
      rw [hzero]
      simp
    · simpa [hp] using hle p
  · intro p
    rw [hnotes, hcontent, countP_path_append NotesRow.path,
        countP_path_append NotesContentRow.path]
    by_cases hp : details.path.display = p <;> simp [hp, heq p]

/-- `delete_notes` preserves the bijection for every batch of paths. -/
theorem delete_notes_pathBijection (s : DBState) (paths : List NotePath)
    (h : pathBijection s) : pathBijection (delete_notes s paths) := by
  induction paths generalizing s with
  | nil => exact h
  | cons p ps ih => exact ih (delete_note s p) (delete_note_pathBijection s p h)

/-- `update_notes` preserves the bijection for every batch. -/
theorem update_notes_pathBijection (s : DBState)
    (batch : List (NoteEntryData × NoteDetails)) (h : pathBijection s) :
    pathBijection (update_notes s batch) := by
  induction batch generalizing s with
  | nil => exact h
  | cons rd rds ih =>
    exact ih (update_note s rd.1 rd.2) (update_note_pathBijection s rd.1 rd.2 h)

/-- `insert_notes` preserves the bijection when the batch paths are
pairwise distinct and none of them already has a `notes` row. -/
theorem insert_notes_pathBijection (s : DBState)
    (batch : List (NoteEntryData × NoteDetails)) (h : pathBijection s)
    (hnodup : (batch.map (fun rd => rd.2.path.display)).Nodup)
    (hfresh : ∀ rd ∈ batch, ∀ r ∈ s.notes, r.path ≠ rd.2.path.display) :
    pathBijection (insert_notes s batch) := by
  induction batch generalizing s with
  | nil => exact h
  | cons rd rds ih =>
    have hfr : ∀ r ∈ s.notes, r.path ≠ rd.2.path.display :=
      fun r hr => hfresh rd (by simp) r hr
    have h1 := insert_note_pathBijection s rd.1 rd.2 h hfr
    have hnotes := insert_note_notes_of_fresh s rd.1 rd.2 hfr
    have hnodup' : (rds.map (fun x => x.2.path.display)).Nodup :=
      (List.nodup_cons.mp hnodup).2
    have hhead : rd.2.path.display ∉ rds.map (fun x => x.2.path.display) :=
      (List.nodup_cons.mp hnodup).1
    apply ih (insert_note s rd.1 rd.2) h1 hnodup'
    intro rd' hrd' r hr
    rw [hnotes] at hr
    rcases List.mem_append.mp hr with hmem | hmem
    · exact hfresh rd' (by simp [hrd']) r hmem
    · have hreq : r.path = rd.2.path.display := by
        simp only [List.mem_singleton] at hmem
        rw [hmem]
      rw [hreq]
      intro hcontra
      exact hhead (hcontra ▸ List.mem_map.mpr ⟨rd', hrd', rfl⟩)

/-- C1 counterexample: starting from a bijective index holding `/a.md`,
calling `insert_notes` again for `/a.md` leaves the `notes` table unchanged
(the primary-key violation is logged and swallowed) while `notesContent`
gains a second row for the same path, so the bijection is broken. -/
theorem c1_insert_existing_counterexample :
    pathBijection (DBState.mk [⟨str "/a.md", Option.none, 5, 0, 7, str "/", str "a.md"⟩]
                              [⟨str "/a.md", str "hello"⟩])
    ∧ ¬ pathBijection (insert_notes
        (DBState.mk [⟨str "/a.md", Option.none, 5, 0, 7, str "/", str "a.md"⟩]
                    [⟨str "/a.md", str "hello"⟩])
        [(⟨[str "a.md"], 5, 0⟩, ⟨[str "a.md"], ⟨7, Option.none⟩, str "hello"⟩)]) := by
  constructor
  · constructor
    · intro p
      by_cases hp : str "/a.md" = p <;> simp [List.countP_cons, hp]
    · intro p
      by_cases hp : str "/a.md" = p <;> simp [List.countP_cons, hp]
  · intro hbad
    exact absurd (hbad.2 (str "/a.md")) (by decide)

/-- C1 (amended): after a successful `delete_notes` or `update_notes` the
`notes` ↔ `notesContent` bijection on the stringified path is preserved,
and so is it after `insert_notes` provided the inserted paths are pairwise
distinct and none already has a `notes` row.  When `insert_note` is invoked
for a path whose `notes` row already exists the bijection does NOT survive:
the failed `notes` insert is swallowed while `notesContent` still gains a
duplicate row (see the counterexample). -/
theorem c1_index_write_bijection_amended (s : DBState) (h : pathBijection s) :
    (∀ paths, pathBijection (delete_notes s paths))
    ∧ (∀ batch, pathBijection (update_notes s batch))
    ∧ ∀ batch, (batch.map (fun rd => rd.2.path.display)).Nodup →
        (∀ rd ∈ batch, ∀ r ∈ s.notes, r.path ≠ rd.2.path.display) →
        pathBijection (insert_notes s batch) :=
  ⟨fun paths => delete_notes_pathBijection s paths h,
   fun batch => update_notes_pathBijection s batch h,
   fun batch hn hf => insert_notes_pathBijection s batch h hn hf⟩

/-- Witness for C1 on the empty index and a one-element fresh batch. -/
theorem c1_index_write_bijection_amended_witness :
    pathBijection (insert_notes (DBState.mk [] [])
      [(⟨[str "b.md"], 1, 2⟩, ⟨[str "b.md"], ⟨3, Option.none⟩, str "x"⟩)]) :=
  (c1_index_write_bijection_amended (DBState.mk [] [])
      ⟨fun p => by simp, fun p => by simp⟩).2.2
    _ (by decide) (by intro rd hrd r hr; simp at hr)

/-! ## `get_notes` (`core_notes/src/db/mod.rs`)

Non-recursive queries use `basePath = ?1`; recursive queries use
`basePath LIKE (?1 || '%')` with no ESCAPE clause, so SQLite `LIKE`
semantics apply: `%` matches any sequence, `_` any single character, and
ASCII letters compare case-insensitively. -/

/-- SQLite case folding for `LIKE`: ASCII letters only. -/
def lowerAscii (c : Char) : Char :=
  if 'A' ≤ c ∧ c ≤ 'Z' then Char.ofNat (c.toNat + 32) else c

/-- SQLite `LIKE` matching (no ESCAPE): `%` matches any sequence, `_` any
single character, and other characters match up to ASCII case folding. -/
def likeMatch : Str → Str → Bool
  | [], s => s.isEmpty
  | c :: p, s =>
    if c = '%' then s.tails.any (fun t => likeMatch p t)
    else
      match s with
      | [] => false
      | d :: s2 => (c = '_' || lowerAscii c = lowerAscii d) && likeMatch p s2

/-- `get_notes`: the rows selected by the two SQL queries. -/
def get_notes (notes : List NotesRow) (path : NotePath) (recursive : Bool) : List NotesRow :=
  if recursive then
    notes.filter (fun r => likeMatch (path.display ++ ['%']) r.basePath)
  else
    notes.filter (fun r => r.basePath = path.display)

/-- A trailing `%` accepts every string. -/
theorem likeMatch_percent_any (s : Str) : likeMatch ['%'] s = true := by
  induction s with
  | nil => rfl
  | cons d s2 ih => simp [likeMatch, List.tails, ih]

/-- Matching `q || '%'` for a wildcard-free `q` is exactly ASCII
case-insensitive prefix matching. -/
theorem likeMatch_append_percent (q : Str) (hq : ∀ c ∈ q, c ≠ '%' ∧ c ≠ '_') (s : Str) :
    likeMatch (q ++ ['%']) s
      = (q.map lowerAscii).isPrefixOf (s.map lowerAscii) := by
  induction q generalizing s with
  | nil => simp [likeMatch_percent_any]
  | cons c q' ih =>
    have hc := hq c (List.mem_cons_self c q')
    have hq' : ∀ x ∈ q', x ≠ '%' ∧ x ≠ '_' := fun x hx => hq x (List.mem_cons_of_mem c hx)
    cases s with
    | nil => simp [likeMatch, hc.1]
    | cons d s2 =>
      simp only [List.cons_append, likeMatch, if_neg hc.1, hc.2, List.map_cons,
        List.isPrefixOf, List.append_eq]
      rw [ih hq' s2]
      by_cases hcd : lowerAscii c = lowerAscii d <;> simp [hcd, hc.2]

/-- C6 counterexample: with the subpath `/a_b` (containing `_`), recursive
`get_notes` also returns a row whose `basePath` is `/axb`, which does not
begin with the displayed subpath — the un-escaped `_` acts as a `LIKE`
wildcard. -/
theorem c6_get_notes_counterexample :
    get_notes [⟨str "/axb/n.md", Option.none, 1, 2, 3, str "/axb", str "n.md"⟩]
        [str "a_b"] true
      = [⟨str "/axb/n.md", Option.none, 1, 2, 3, str "/axb", str "n.md"⟩]
    ∧ (NotePath.display [str "a_b"]).isPrefixOf (str "/axb") = false := by
  decide

/-- C6 (amended): non-recursive `get_notes` returns exactly the rows whose
`basePath` equals the displayed subpath.  Recursive `get_notes` applies
SQLite `LIKE` with pattern `display(subpath) || '%'`; for subpaths whose
display contains neither `%` nor `_` this returns exactly the rows whose
`basePath` begins with the displayed subpath up to ASCII case folding
(so it is not literal prefix matching, and for subpaths containing `%` or
`_` strictly more rows can match). -/
theorem c6_get_notes_amended :
    (∀ (notes : List NotesRow) (path : NotePath),
       get_notes notes path false = notes.filter (fun r => r.basePath = path.display))
    ∧ ∀ (notes : List NotesRow) (path : NotePath),
        (∀ c ∈ path.display, c ≠ '%' ∧ c ≠ '_') →
        get_notes notes path true
          = notes.filter (fun r =>
              (path.display.map lowerAscii).isPrefixOf (r.basePath.map lowerAscii)) := by
  constructor
  · intro notes path
    simp [get_notes]
  · intro notes path hwild
    simp only [get_notes, if_pos rfl]
    apply List.filter_congr
    intro r _
    exact likeMatch_append_percent path.display hwild r.basePath

/-- Witness for C6: a query under `/ab` also returns (case-folded) the row
whose `basePath` is `/Ab`. -/
theorem c6_get_notes_amended_witness :
    get_notes [⟨str "/Ab/n.md", Option.none, 1, 2, 3, str "/Ab", str "n.md"⟩]
        [str "ab"] true
      = [⟨str "/Ab/n.md", Option.none, 1, 2, 3, str "/Ab", str "n.md"⟩] := by
  have h := c6_get_notes_amended.2
    [⟨str "/Ab/n.md", Option.none, 1, 2, 3, str "/Ab", str "n.md"⟩]
    [str "ab"] (by decide)
  rw [h]
  decide

/-! ## Vault facade (`core/src/lib.rs`)

`init_and_validate` dispatches on the index status; the side effects are
modelled as the sequence of operations performed. -/

/-- `db::DBStatus`. -/
inductive DBStatus where
  | Ready
  | Outdated
  | NotValid
  | FileNotFound
deriving DecidableEq, Repr

/-- The observable operations `init_and_validate` can perform, in order:
deleting the index file, `create_tables` (= `init_db`: drop all tables,
`VACUUM`, recreate the schema), and `index_notes(mode)`. -/
inductive VaultAction where
  | deleteIndexFile
  | initTables
  | index (mode : NotesValidation)
deriving DecidableEq, Repr

/-- `recreate_index`: `create_tables` then `index_notes(Full)`. -/
def recreate_index : List VaultAction :=
  [VaultAction.initTables, VaultAction.index NotesValidation.Full]

/-- `init_and_validate`: the operations performed for each `check_db`
status. -/
def init_and_validate (status : DBStatus) : List VaultAction :=
  match status with
  | DBStatus.Ready => [VaultAction.index NotesValidation.None]
  | DBStatus.Outdated => recreate_index
  | DBStatus.NotValid => VaultAction.deleteIndexFile :: recreate_index
  | DBStatus.FileNotFound =>
      [VaultAction.initTables, VaultAction.index NotesValidation.None]

/-- C7: `init_and_validate` follows the index status state machine: Ready
runs `index(None)` only (no schema reinitialisation), FileNotFound
initialises the schema then runs `index(None)`, Outdated reinitialises then
runs `index(Full)`, and NotValid deletes the index file, reinitialises,
then runs `index(Full)`. -/
theorem c7_init_and_validate_state_machine :
    init_and_validate DBStatus.Ready = [VaultAction.index NotesValidation.None]
    ∧ init_and_validate DBStatus.FileNotFound
        = [VaultAction.initTables, VaultAction.index NotesValidation.None]
    ∧ init_and_validate DBStatus.Outdated
        = [VaultAction.initTables, VaultAction.index NotesValidation.Full]
    ∧ init_and_validate DBStatus.NotValid
        = [VaultAction.deleteIndexFile, VaultAction.initTables,
           VaultAction.index NotesValidation.Full] :=
  ⟨rfl, rfl, rfl, rfl⟩

/-! ## Filesystem model and note operations

(`core/src/lib.rs` with `VaultEntry` / `save_note` / `load_note` from
`src/core_notes/nfs/mod.rs`). -/

/-- A filesystem entry: a regular file with its content and mtime-seconds,
or a directory. -/
inductive FSEntry where
  | file (content : Str) (mtime : Nat)
  | dir
deriving DecidableEq, Repr

/-- The workspace subtree, keyed by `NotePath`. -/
abbrev FileSystem := List (NotePath × FSEntry)

def fsLookup (fs : FileSystem) (p : NotePath) : Option FSEntry :=
  (fs.find? (fun e => e.1 = p)).map (fun e => e.2)

/-- The byte index of the last `.` of a file name. -/
def lastDotIdx (name : Str) : Option Nat :=
  match (name.reverse).findIdx? (fun c => c = '.') with
  | Option.none => Option.none
  | some j => some (name.length - 1 - j)

/-- Rust `Path::extension()` on a single file name: the part after the
last `.`, none when there is no `.`, when the only `.` is leading (hidden
files), or for the special names `.` and `..`. -/
def rustExtension (name : Str) : Option Str :=
  if name = ['.'] ∨ name = ['.', '.'] then Option.none
  else
    match lastDotIdx name with
    | Option.none => Option.none
    | some 0 => Option.none
    | some i => some (name.drop (i + 1))

/-- `NotePath::is_note`: the extension of the last slice is `md`. -/
def NotePath.is_note (p : NotePath) : Bool :=
  match p.getLast? with
  | some s => rustExtension s = some (str "md")
  | Option.none => false

/-- `EntryData` of a `VaultEntry`. -/
inductive EntryData where
  | Note (data : NoteEntryData)
  | Directory (path : NotePath)
  | Attachment
deriving DecidableEq, Repr

/-- `VaultEntry::new`: error (`none`) when nothing exists at the path;
otherwise a directory, a note (for `.md` files, with stat data), or an
attachment. -/
def VaultEntry.new (fs : FileSystem) (p : NotePath) : Option EntryData :=
  match fsLookup fs p with
  | Option.none => Option.none
  | some FSEntry.dir => some (EntryData.Directory p)
  | some (FSEntry.file content mtime) =>
    if p.is_note then some (EntryData.Note ⟨p, utf8Len content, mtime⟩)
    else some EntryData.Attachment

/-- `NoteVault::exists`: `Some` iff `VaultEntry::new` succeeds. -/
def vault_exists (fs : FileSystem) (p : NotePath) : Option EntryData :=
  VaultEntry.new fs p

/-- The error kinds the modelled operations produce. -/
inductive VaultError where
  | VaultPathNotFound
  | InvalidPath
  | NoteExists (path : NotePath)
  | ReadFileError
deriving DecidableEq, Repr

/-- The vault state: workspace files plus the index. -/
structure VaultState where
  fs : FileSystem
  db : DBState

/-- Replace the entry at a path, or append it. -/
def fsUpsert (fs : FileSystem) (p : NotePath) (e : FSEntry) : FileSystem :=
  if (fs.find? (fun x => x.1 = p)).isSome then
    fs.map (fun x => if x.1 = p then (p, e) else x)
  else fs ++ [(p, e)]

/-- `std::fs::create_dir_all` on the parent chain: add a directory entry
for every non-empty prefix of `parent` that is absent. -/
def ensureDirs (fs : FileSystem) (parent : NotePath) : FileSystem :=
  (List.range parent.length).foldl
    (fun acc k =>
      if (acc.find? (fun e => e.1 = parent.take (k + 1))).isSome then acc
      else acc ++ [(parent.take (k + 1), FSEntry.dir)])
    fs

/-- `nfs::save_note`: refuse non-note paths, create parent directories,
write with truncate-create semantics, then stat. -/
def fs_save_note (fs : FileSystem) (p : NotePath) (text : Str) (now : Nat) :
    Except VaultError (FileSystem × NoteEntryData) :=
  if ¬ p.is_note then Except.error VaultError.InvalidPath
  else
    let fs1 := ensureDirs fs (p.get_parent_path).1
    match fsLookup fs1 p with
    | some FSEntry.dir => Except.error VaultError.ReadFileError
    | _ => Except.ok (fsUpsert fs1 p (FSEntry.file text now), ⟨p, utf8Len text, now⟩)

/-- `nfs::load_note` with the spec's error mapping (§4.2: fails NotFound
when absent). -/
def load_note (fs : FileSystem) (p : NotePath) : Except VaultError Str :=
  match fsLookup fs p with
  | some (FSEntry.file c _) => Except.ok c
  | some FSEntry.dir => Except.error VaultError.ReadFileError
  | Option.none => Except.error VaultError.VaultPathNotFound

/-- Modelled from the spec: the index-side `save_note(text, entry, details)`
(`core/src/db` is not among the sources) has upsert semantics — insert if
absent, update otherwise (§4.4). -/
def db_save_note (s : DBState) (data : NoteEntryData) (details : NoteDetails) : DBState :=
  if s.notes.any (fun r => r.path = details.path.display) then update_note s data details
  else insert_note s data details

/-- `NoteVault::save_note`: write to disk, derive details from the written
text, store in the index.  `extract_data` stands for the external content
analyser (`content_data::extract_data`). -/
def save_note (extract_data : Str → NoteContentData) (st : VaultState)
    (p : NotePath) (text : Str) (now : Nat) : Except VaultError Unit × VaultState :=
  match fs_save_note st.fs p text now with
  | Except.error e => (Except.error e, st)
  | Except.ok (fs2, entry_data) =>
    (Except.ok (), ⟨fs2, db_save_note st.db entry_data ⟨p, extract_data text, text⟩⟩)

/-- `NoteVault::create_note`: `NoteExists` when anything exists at the
path, otherwise `save_note`. -/
def create_note (extract_data : Str → NoteContentData) (st : VaultState)
    (p : NotePath) (text : Str) (now : Nat) : Except VaultError Unit × VaultState :=
  match vault_exists st.fs p with
  | Option.none => save_note extract_data st p text now
  | some _ => (Except.error (VaultError.NoteExists p), st)

/-- `NoteVault::load_or_create_note`: return the text on success;
lazy-create on NotFound only. -/
def load_or_create_note (extract_data : Str → NoteContentData) (st : VaultState)
    (p : NotePath) (default_text : Option Str) (now : Nat) :
    Except VaultError Str × VaultState :=
  match load_note st.fs p with
  | Except.ok t => (Except.ok t, st)
  | Except.error VaultError.VaultPathNotFound =>
    let text := default_text.getD []
    match create_note extract_data st p text now with
    | (Except.ok _, st2) => (Except.ok text, st2)
    | (Except.error e, st2) => (Except.error e, st2)
  | Except.error e => (Except.error e, st)

/-- Shared helper: whenever something exists at the path, `create_note`
returns `NoteExists` and leaves the whole state untouched (the only
mutating call, `save_note`, is never reached). -/
theorem create_note_occupied (extract_data : Str → NoteContentData)
    (st : VaultState) (p : NotePath) (text : Str) (now : Nat) (e : FSEntry)
    (hp : fsLookup st.fs p = some e) :
    create_note extract_data st p text now
      = (Except.error (VaultError.NoteExists p), st) := by
  have hv : ∃ ed, vault_exists st.fs p = some ed := by
    cases e with
    | dir => exact ⟨EntryData.Directory p, by simp [vault_exists, VaultEntry.new, hp]⟩
    | file c m =>
      by_cases hn : p.is_note
      · exact ⟨EntryData.Note ⟨p, utf8Len c, m⟩,
          by simp [vault_exists, VaultEntry.new, hp, hn]⟩
      · exact ⟨EntryData.Attachment, by simp [vault_exists, VaultEntry.new, hp, hn]⟩
  obtain ⟨ed, hv⟩ := hv
  simp [create_note, hv]

/-- C8: when a note already exists at the path, `create_note` returns the
NoteExists error and changes neither the filesystem nor the index. -/
theorem c8_create_note_note_exists (extract_data : Str → NoteContentData)
    (st : VaultState) (p : NotePath) (text : Str) (now : Nat)
    (content : Str) (mtime : Nat)
    (hp : fsLookup st.fs p = some (FSEntry.file content mtime))
    (_hnote : p.is_note = true) :
    create_note extract_data st p text now
      = (Except.error (VaultError.NoteExists p), st) :=
  create_note_occupied extract_data st p text now _ hp

/-- Witness for C8: creating over the existing note `/a.md`. -/
theorem c8_create_note_note_exists_witness :
    create_note (fun _ => ⟨0, Option.none⟩)
        ⟨[([str "a.md"], FSEntry.file (str "hi") 3)], DBState.mk [] []⟩
        [str "a.md"] (str "new") 9
      = (Except.error (VaultError.NoteExists [str "a.md"]),
         ⟨[([str "a.md"], FSEntry.file (str "hi") 3)], DBState.mk [] []⟩) :=
  c8_create_note_note_exists (fun _ => ⟨0, Option.none⟩)
    ⟨[([str "a.md"], FSEntry.file (str "hi") 3)], DBState.mk [] []⟩
    [str "a.md"] (str "new") 9 (str "hi") 3 (by decide) (by decide)

/-- C10: `exists` answers `Some` for any present filesystem entry —
directories and non-`.md` attachments included — and `create_note` at such
a path consequently fails with NoteExists, leaving the state unchanged. -/
theorem c10_exists_nonnote_entries (st : VaultState) (p : NotePath) (e : FSEntry)
    (hp : fsLookup st.fs p = some e) :
    (vault_exists st.fs p).isSome = true
    ∧ ∀ (extract_data : Str → NoteContentData) (text : Str) (now : Nat),
        create_note extract_data st p text now
          = (Except.error (VaultError.NoteExists p), st) := by
  constructor
  · cases e with
    | dir => simp [vault_exists, VaultEntry.new, hp]
    | file c m =>
      by_cases hn : p.is_note <;> simp [vault_exists, VaultEntry.new, hp, hn]
  · intro extract_data text now
    exact create_note_occupied extract_data st p text now e hp

/-- Witness for C10 at a directory entry: `exists` is `Some` and
`create_note` fails although the occupant is not a note. -/
theorem c10_exists_nonnote_entries_witness :
    (vault_exists [([str "d"], FSEntry.dir)] [str "d"]).isSome = true
    ∧ create_note (fun _ => ⟨0, Option.none⟩)
        ⟨[([str "d"], FSEntry.dir)], DBState.mk [] []⟩ [str "d"] (str "t") 1
      = (Except.error (VaultError.NoteExists [str "d"]),
         ⟨[([str "d"], FSEntry.dir)], DBState.mk [] []⟩) :=
  ⟨(c10_exists_nonnote_entries ⟨[([str "d"], FSEntry.dir)], DBState.mk [] []⟩
      [str "d"] FSEntry.dir (by decide)).1,
   (c10_exists_nonnote_entries ⟨[([str "d"], FSEntry.dir)], DBState.mk [] []⟩
      [str "d"] FSEntry.dir (by decide)).2 (fun _ => ⟨0, Option.none⟩) (str "t") 1⟩

/-! ## Journal entries (`core/src/lib.rs`, `journal_entry` /
`get_todays_journal`)

`Utc::now()` is external real time; the date is therefore a parameter.
`chrono`'s `%Y-%m-%d` zero-pads the year to 4 and month/day to 2 digits
(for the representable range: years 0–9999, real months and days). -/

/-- A UTC calendar date. -/
structure UtcDate where
  year : Nat
  month : Nat
  day : Nat

/-- A decimal digit as a character. -/
def digitChar (d : Nat) : Char :=
  match d with
  | 0 => '0' | 1 => '1' | 2 => '2' | 3 => '3' | 4 => '4'
  | 5 => '5' | 6 => '6' | 7 => '7' | 8 => '8' | _ => '9'

/-- Decimal digits of a number, most significant first. -/
def natDigits (n : Nat) : Str :=
  if _h : n < 10 then [digitChar n]
  else natDigits (n / 10) ++ [digitChar (n % 10)]
decreasing_by exact Nat.div_lt_self (by omega) (by omega)

/-- Zero-pad on the left to a minimum width. -/
def padZeros (w : Nat) (s : Str) : Str := List.replicate (w - s.length) '0' ++ s

/-- `chrono` `%Y-%m-%d` formatting. -/
def formatDate (d : UtcDate) : Str :=
  padZeros 4 (natDigits d.year) ++ str "-" ++ padZeros 2 (natDigits d.month)
    ++ str "-" ++ padZeros 2 (natDigits d.day)

/-- Modelled from the spec: `VaultPath::file_from(name)` appends `.md` when
missing and fails when `name` ends in `/` (`core/src/nfs/mod.rs` is not
among the sources; §3 of the spec).  The failing case is `none`. -/
def file_from (s : Str) : Option NotePath :=
  if s.getLast? = some '/' then Option.none
  else if (str ".md").isSuffixOf s then some (NotePath.new s)
  else some (NotePath.new (s ++ str ".md"))

/-- `get_todays_journal`: the formatted date and the path
`journal/<date>.md` (`VaultPath::append`, modelled from the spec as slice
concatenation, is total here since the date string never ends in `/`). -/
def get_todays_journal (today : UtcDate) : Str × NotePath :=
  (formatDate today,
   NotePath.new (str "journal") ++ (file_from (formatDate today)).getD [])

/-- `journal_entry`: load or create today's journal note with initial text
`# <date>\n\n`; the returned string is the note content. -/
def journal_entry (extract_data : Str → NoteContentData) (st : VaultState)
    (today : UtcDate) (now : Nat) : Except VaultError Str × VaultState :=
  load_or_create_note extract_data st (get_todays_journal today).2
    (some (str "# " ++ (get_todays_journal today).1 ++ str "\n\n")) now

theorem digitChar_mem (d : Nat) : digitChar d ∈ str "0123456789" := by
  rcases d with _|_|_|_|_|_|_|_|_|n
  · decide
  · decide
  · decide
  · decide
  · decide
  · decide
  · decide
  · decide
  · decide
  · exact (by decide : ('9' : Char) ∈ str "0123456789")

/-- Characters appearing in a formatted date are digits or `-`. -/
theorem natDigits_props (n : Nat) :
    natDigits n ≠ [] ∧ (∀ c ∈ natDigits n, c ∈ str "0123456789")
    ∧ (natDigits n).getLast? = some (digitChar (n % 10)) := by
  induction n using Nat.strong_induction_on with
  | _ n ih =>
    rw [natDigits]
    by_cases h : n < 10
    · rw [dif_pos h]
      refine ⟨by simp, ?_, ?_⟩
      · intro c hc
        simp only [List.mem_singleton] at hc
        subst hc
        exact digitChar_mem n
      · simp [Nat.mod_eq_of_lt h]
    · rw [dif_neg h]
      have ih10 := ih (n / 10) (Nat.div_lt_self (by omega) (by omega))
      refine ⟨by simp, ?_, List.getLast?_concat _⟩
      intro c hc
      rcases List.mem_append.mp hc with hmem | hmem
      · exact ih10.2.1 c hmem
      · simp only [List.mem_singleton] at hmem
        subst hmem
        exact digitChar_mem _

theorem padZeros_props (w : Nat) (s : Str) (hs : s ≠ []) :
    padZeros w s ≠ []
    ∧ (∀ c ∈ padZeros w s, c = '0' ∨ c ∈ s)
    ∧ (padZeros w s).getLast? = s.getLast? := by
  refine ⟨by simp [padZeros, hs], ?_, ?_⟩
  · intro c hc
    rcases List.mem_append.mp hc with hmem | hmem
    · exact Or.inl (List.mem_replicate.mp hmem).2
    · exact Or.inr hmem
  · rw [padZeros, List.getLast?_append]
    cases hg : s.getLast? with
    | none => exact absurd (List.getLast?_eq_none_iff.mp hg) hs
    | some x => simp

theorem formatDate_props (d : UtcDate) :
    formatDate d ≠ []
    ∧ (∀ c ∈ formatDate d, c ∈ str "0123456789-")
    ∧ (formatDate d).getLast? = some (digitChar (d.day % 10)) := by
  have hy := natDigits_props d.year
  have hm := natDigits_props d.month
  have hd := natDigits_props d.day
  have py := padZeros_props 4 (natDigits d.year) hy.1
  have pm := padZeros_props 2 (natDigits d.month) hm.1
  have pd := padZeros_props 2 (natDigits d.day) hd.1
  have hsub : ∀ a ∈ str "0123456789", a ∈ str "0123456789-" := by decide
  have hdash : ∀ a ∈ str "-", a ∈ str "0123456789-" := by decide
  have hzero : ('0' : Char) ∈ str "0123456789-" := by decide
  have hlast : (formatDate d).getLast? = some (digitChar (d.day % 10)) := by
    rw [formatDate, List.getLast?_append, pd.2.2, hd.2.2, Option.or_some]
  have hne : formatDate d ≠ [] := by
    intro hcon
    rw [hcon] at hlast
    simp at hlast
  refine ⟨hne, ?_, hlast⟩
  intro c hc
  simp only [formatDate, List.mem_append] at hc
  rcases hc with ((((h | h) | h) | h) | h)
  · rcases py.2.1 c h with rfl | h2
    · exact hzero
    · exact hsub c (hy.2.1 c h2)
  · exact hdash c h
  · rcases pm.2.1 c h with rfl | h2
    · exact hzero
    · exact hsub c (hm.2.1 c h2)
  · exact hdash c h
  · rcases pd.2.1 c h with rfl | h2
    · exact hzero
    · exact hsub c (hd.2.1 c h2)

/-- The journal path is the two slices `journal` and `<date>.md`. -/
theorem get_todays_journal_path (today : UtcDate) :
    (get_todays_journal today).2 = [str "journal", formatDate today ++ str ".md"] := by
  obtain ⟨hne, hmem, hlast⟩ := formatDate_props today
  have hnslash : ¬ (formatDate today).getLast? = some '/' := by
    rw [hlast]
    intro hcon
    simp only [Option.some.injEq] at hcon
    have hd := digitChar_mem (today.day % 10)
    rw [hcon] at hd
    revert hd
    decide
  have hnsuffix : ((str ".md").isSuffixOf (formatDate today)) = false := by
    have hrev : (formatDate today).reverse.head? = some (digitChar (today.day % 10)) := by
      rw [List.head?_reverse]
      exact hlast
    cases hrevl : (formatDate today).reverse with
    | nil => rw [hrevl] at hrev; simp at hrev
    | cons hch t =>
      rw [hrevl] at hrev
      simp only [List.head?_cons, Option.some.injEq] at hrev
      have hne_d : ('d' == hch) = false := by
        subst hrev
        have hd := digitChar_mem (today.day % 10)
        simp only [beq_eq_false_iff_ne, ne_eq]
        intro hcontra
        rw [← hcontra] at hd
        revert hd
        decide
      have hmd : (str ".md").reverse = ['d', 'm', '.'] := by decide
      simp only [List.isSuffixOf, hmd, hrevl, List.isPrefixOf, hne_d, Bool.false_and]
  have hffrom : file_from (formatDate today)
      = some (NotePath.new (formatDate today ++ str ".md")) := by
    rw [file_from, if_neg hnslash, if_neg (by simp [hnsuffix])]
  have hname : NotePath.new (formatDate today ++ str ".md")
      = [formatDate today ++ str ".md"] := by
    have hns : ∀ c ∈ formatDate today ++ str ".md", c ≠ '/' := by
      intro c hc hcon
      rcases List.mem_append.mp hc with h | h
      · have hin := hmem c h
        rw [hcon] at hin
        revert hin
        decide
      · rw [hcon] at h
        revert h
        decide
    have hval : ∀ c ∈ formatDate today ++ str ".md", c ∉ nonValidPathChars := by
      intro c hc
      rcases List.mem_append.mp hc with h | h
      · exact (by decide : ∀ a ∈ str "0123456789-", a ∉ nonValidPathChars) c (hmem c h)
      · exact (by decide : ∀ a ∈ str ".md", a ∉ nonValidPathChars) c h
    have hnonempty : formatDate today ++ str ".md" ≠ [] := by simp [hne]
    rw [NotePath.new, splitSep_no_sep '/' _ hns]
    simp [hnonempty, sanitizeSlice_of_valid _ hval]
  have hjournal : NotePath.new (str "journal") = [str "journal"] := by decide
  simp only [get_todays_journal, hffrom, hjournal, hname, Option.getD_some]
  rfl

/-- The journal path displays as `/journal/<date>.md`. -/
theorem journal_display (today : UtcDate) :
    NotePath.display (get_todays_journal today).2
      = str "/journal/" ++ formatDate today ++ str ".md" := by
  rw [get_todays_journal_path]
  simp only [NotePath.display, joinSep]
  have hpre : str "/journal/" = '/' :: (str "journal" ++ ['/']) := by decide
  rw [hpre]
  simp [List.append_assoc]

/-- The journal path is a note path: its last slice has extension `md`. -/
theorem journal_is_note (today : UtcDate) :
    NotePath.is_note (get_todays_journal today).2 = true := by
  rw [get_todays_journal_path]
  obtain ⟨hne, hmem, hlast⟩ := formatDate_props today
  have hmdlen : (str ".md").length = 3 := by decide
  have hlen : (formatDate today ++ str ".md").length = (formatDate today).length + 3 := by
    rw [List.length_append, hmdlen]
  have hfne : (formatDate today).length ≠ 0 := by
    intro hcon
    exact hne (List.length_eq_zero.mp hcon)
  have hns1 : formatDate today ++ str ".md" ≠ ['.'] := by
    intro hcon
    have hl := congrArg List.length hcon
    rw [hlen] at hl
    simp at hl
  have hns2 : formatDate today ++ str ".md" ≠ ['.', '.'] := by
    intro hcon
    have hl := congrArg List.length hcon
    rw [hlen] at hl
    simp at hl
  have hrev : (formatDate today ++ str ".md").reverse
      = 'd' :: 'm' :: '.' :: (formatDate today).reverse := by
    rw [List.reverse_append]
    have hmd : (str ".md").reverse = ['d', 'm', '.'] := by decide
    rw [hmd]
    rfl
  have hfind : ((formatDate today ++ str ".md").reverse).findIdx? (fun c => c = '.')
      = some 2 := by
    rw [hrev]
    simp [List.findIdx?_cons]
  have hdot : lastDotIdx (formatDate today ++ str ".md")
      = some (formatDate today).length := by
    rw [lastDotIdx, hfind]
    have harith : (formatDate today ++ str ".md").length - 1 - 2
        = (formatDate today).length := by
      rw [hlen]
      omega
    show some ((formatDate today ++ str ".md").length - 1 - 2)
        = some ((formatDate today).length)
    rw [harith]
  have hext : rustExtension (formatDate today ++ str ".md") = some (str "md") := by
    rw [rustExtension, if_neg (not_or.mpr ⟨hns1, hns2⟩), hdot]
    cases hl : (formatDate today).length with
    | zero => exact absurd hl hfne
    | succ k =>
      show some ((formatDate today ++ str ".md").drop (k + 1 + 1)) = some (str "md")
      congr 1
      have hk : k + 1 + 1 = (formatDate today).length + 1 := by rw [hl]
      rw [hk, List.drop_append]
      decide
  simp [NotePath.is_note, hext]

/-- Looking up in concatenated filesystems. -/
theorem fsLookup_append (fs1 fs2 : FileSystem) (p : NotePath) :
    fsLookup (fs1 ++ fs2) p = (fsLookup fs1 p).or (fsLookup fs2 p) := by
  rw [fsLookup, List.find?_append]
  cases h : fs1.find? (fun e => e.1 = p) with
  | none => simp [fsLookup, h]
  | some v => simp [fsLookup, h]

/-- `create_dir_all` only touches prefixes of the parent, which are
strictly shorter than the note path, so an absent note stays absent. -/
theorem ensureDirs_lookup_none (fs : FileSystem) (parent p : NotePath)
    (hlen : parent.length < p.length) (h : fsLookup fs p = Option.none) :
    fsLookup (ensureDirs fs parent) p = Option.none := by
  rw [ensureDirs]
  generalize List.range parent.length = ks
  revert h
  induction ks generalizing fs with
  | nil => intro h; exact h
  | cons k ks ih =>
    intro h
    rw [List.foldl_cons]
    apply ih
    by_cases hf : (fs.find? (fun e => e.1 = parent.take (k + 1))).isSome
    · rw [if_pos hf]
      exact h
    · rw [if_neg hf, fsLookup_append, h, Option.none_or]
      have hne : parent.take (k + 1) ≠ p := by
        intro hcon
        have := congrArg List.length hcon
        rw [List.length_take] at this
        omega
      simp [fsLookup, List.find?_cons, hne]

/-- After overwriting the row for `p`, the lookup returns the new entry. -/
theorem fsLookup_overwrite (fs : FileSystem) (p : NotePath) (e : FSEntry)
    (hf : (fs.find? (fun x => x.1 = p)).isSome) :
    fsLookup (fs.map (fun x => if x.1 = p then (p, e) else x)) p = some e := by
  induction fs with
  | nil => simp at hf
  | cons x xs ih =>
    by_cases hx : x.1 = p
    · simp only [List.map_cons, if_pos hx]
      rw [fsLookup, List.find?_cons_of_pos _ (by simp)]
      simp
    · simp only [List.map_cons, if_neg hx]
      have hf' : (xs.find? (fun x => x.1 = p)).isSome := by
        rw [List.find?_cons_of_neg _ (by simp [hx])] at hf
        exact hf
      rw [fsLookup, List.find?_cons_of_neg _ (by simp [hx])]
      exact ih hf'

/-- The entry just written by `fsUpsert` is found at its path. -/
theorem fsUpsert_lookup_self (fs : FileSystem) (p : NotePath) (e : FSEntry) :
    fsLookup (fsUpsert fs p e) p = some e := by
  by_cases hf : (fs.find? (fun x => x.1 = p)).isSome
  · rw [fsUpsert, if_pos hf]
    exact fsLookup_overwrite fs p e hf
  · rw [fsUpsert, if_neg hf, fsLookup_append]
    have hnone : fsLookup fs p = Option.none := by
      rw [fsLookup, Option.not_isSome_iff_eq_none.mp hf]
      rfl
    rw [hnone, Option.none_or, fsLookup, List.find?_cons_of_pos _ (by simp)]
    rfl

/-- C9: `journal_entry` targets `/journal/YYYY-MM-DD.md` for today's UTC
date (zero-padded, modelled for the representable chrono range); when no
note exists there it creates one whose content is exactly `# <date>\n\n`
and returns that content; when the note exists its content is returned and
the state is unchanged.  Real time is a parameter: `today` stands for
`Utc::now()`'s date and `now` for the written file's mtime. -/
theorem c9_journal_entry_spec (extract_data : Str → NoteContentData)
    (st : VaultState) (today : UtcDate) (now : Nat)
    (_hy : today.year ≤ 9999) (_hm : today.month ≤ 12) (_hd : today.day ≤ 31) :
    NotePath.display (get_todays_journal today).2
        = str "/journal/" ++ formatDate today ++ str ".md"
    ∧ (fsLookup st.fs (get_todays_journal today).2 = Option.none →
        (journal_entry extract_data st today now).1
            = Except.ok (str "# " ++ formatDate today ++ str "\n\n")
        ∧ fsLookup (journal_entry extract_data st today now).2.fs
            (get_todays_journal today).2
          = some (FSEntry.file (str "# " ++ formatDate today ++ str "\n\n") now))
    ∧ ∀ (content : Str) (mtime : Nat),
        fsLookup st.fs (get_todays_journal today).2
            = some (FSEntry.file content mtime) →
        journal_entry extract_data st today now = (Except.ok content, st) := by
  refine ⟨journal_display today, ?_, ?_⟩
  · intro habsent
    have hload : load_note st.fs (get_todays_journal today).2
        = Except.error VaultError.VaultPathNotFound := by
      rw [load_note, habsent]
    have hex : vault_exists st.fs (get_todays_journal today).2 = Option.none := by
      rw [vault_exists, VaultEntry.new, habsent]
    have hisnote := journal_is_note today
    have hparentlen : (((get_todays_journal today).2).get_parent_path).1.length
        < ((get_todays_journal today).2).length := by
      rw [get_todays_journal_path]
      simp [NotePath.get_parent_path]
    have hlook1 : fsLookup
        (ensureDirs st.fs (((get_todays_journal today).2).get_parent_path).1)
        (get_todays_journal today).2 = Option.none :=
      ensureDirs_lookup_none _ _ _ hparentlen habsent
    have hje : journal_entry extract_data st today now
        = (Except.ok (str "# " ++ formatDate today ++ str "\n\n"),
           ⟨fsUpsert (ensureDirs st.fs (((get_todays_journal today).2).get_parent_path).1)
              (get_todays_journal today).2
              (FSEntry.file (str "# " ++ formatDate today ++ str "\n\n") now),
            db_save_note st.db
              ⟨(get_todays_journal today).2,
               utf8Len (str "# " ++ formatDate today ++ str "\n\n"), now⟩
              ⟨(get_todays_journal today).2,
               extract_data (str "# " ++ formatDate today ++ str "\n\n"),
               str "# " ++ formatDate today ++ str "\n\n"⟩⟩) := by
      simp only [journal_entry, load_or_create_note, hload, create_note, hex,
        save_note, fs_save_note, hisnote, hlook1, Option.getD_some, not_true,
        if_false, Bool.not_eq_true]
      rfl
    constructor
    · rw [hje]
    · rw [hje]
      exact fsUpsert_lookup_self _ _ _
  · intro content mtime hpresent
    have hload : load_note st.fs (get_todays_journal today).2 = Except.ok content := by
      rw [load_note, hpresent]
    simp only [journal_entry, load_or_create_note, hload]

/-- Witness for C9 on 2025-01-02 over the empty workspace. -/
theorem c9_journal_entry_spec_witness :
    (journal_entry (fun _ => ⟨0, Option.none⟩) ⟨[], DBState.mk [] []⟩ ⟨2025, 1, 2⟩ 7).1
      = Except.ok (str "# " ++ formatDate ⟨2025, 1, 2⟩ ++ str "\n\n") :=
  ((c9_journal_entry_spec (fun _ => ⟨0, Option.none⟩) ⟨[], DBState.mk [] []⟩
      ⟨2025, 1, 2⟩ 7 (by decide) (by decide) (by decide)).2.1 rfl).1
